import Mathlib

/-!
Shallow embedding of `sniphles.py`: a pipeline that segments each chromosome
into phased and unphased blocks, splits reads per haplotype, gates each
read-set on mean coverage, calls an external SV caller, and aggregates the
per-haplotype call files.

Python values that flow through dictionary keys and tag comparisons are
modelled by `PyVal`, distinguishing integers from strings the way Python
equality does (an int is never equal to a str).
-/

/-- A Python value as used for BAM tags, dict keys and phase labels:
either an integer or a string.  Python `==` never identifies an int with
a str, which the constructor disjointness of this type mirrors. -/
inductive PyVal where
  | pyInt : Int → PyVal
  | pyStr : String → PyVal
deriving DecidableEq, Repr

export PyVal (pyInt pyStr)

/-- The `status` attribute of a `PhaseBlock`: biphasic, monophasic or unphased. -/
inductive Status where
  | biphasic
  | monophasic
  | unphased
deriving DecidableEq, Repr

/-- The `PhaseBlock` class of `sniphles.py` (lines 14-20).  The source
attribute `end` is rendered `stop` because `end` is a Lean keyword.
`phase` is the list stored in the `phase` attribute: haplotype labels,
or the single unphased sentinel. -/
structure PhaseBlock where
  id : PyVal
  start : Nat
  stop : Nat
  phase : List PyVal
  status : Status
deriving DecidableEq, Repr

/-- An aligned read as consumed by the pipeline: whether it carries an HP
tag, the HP tag value, the PS tag value, and its reference span
(`reference_start` inclusive, `reference_end` exclusive).  The HP and PS
values are only inspected by the code when `hasHP` is true, matching the
`read.has_tag` guards in the source. -/
structure Read where
  hasHP : Bool
  hp : PyVal
  ps : PyVal
  reference_start : Nat
  reference_end : Nat
deriving DecidableEq, Repr

/-- Python `max` over a nonempty list of naturals (`np.amax` / built-in
`max`); 0 on the empty list, which the source never hits. -/
def pyMax : List Nat → Nat
  | [] => 0
  | x :: xs => xs.foldl Nat.max x

/-- Python `min` over a nonempty list of naturals (`np.amin`); 0 on the
empty list, which the source never hits. -/
def pyMin : List Nat → Nat
  | [] => 0
  | x :: xs => xs.foldl Nat.min x

/-- Comparison key used by `sorted(phase_blocks, key=lambda x: x.start)`. -/
def startLE (a b : PhaseBlock) : Prop := a.start ≤ b.start

instance : DecidableRel startLE := fun a b => Nat.decLe a.start b.start

instance : IsTotal PhaseBlock startLE := ⟨fun a b => Nat.le_total a.start b.start⟩

instance : IsTrans PhaseBlock startLE := ⟨fun _ _ _ h h2 => Nat.le_trans h h2⟩

/-- Python `sorted` on naturals.  `List.insertionSort` with a total order
is a stable sort, hence extensionally equal to Python sorting. -/
def sortNat (l : List Nat) : List Nat := List.insertionSort (· ≤ ·) l

/-- Python `sorted(blocks, key=lambda x: x.start)` (stable sort by start). -/
def sortBlocks (l : List PhaseBlock) : List PhaseBlock := List.insertionSort startLE l

/-- The reads of one chromosome that carry an HP tag (the
`read.has_tag` filter inside `check_phase_blocks`, line 92). -/
def hpReads (reads : List Read) : List Read := reads.filter (fun r => r.hasHP)

/-- The reads appended to `phase_dict[k]` / `coordinate_dict[k]`: the
HP-tagged reads whose PS tag equals `k`, in read order (lines 91-94). -/
def groupReads (reads : List Read) (k : PyVal) : List Read :=
  (hpReads reads).filter (fun r => r.ps = k)

/-- `phase_dict[k]`: the HP tag values of the group in read order (line 93). -/
def phaseList (reads : List Read) (k : PyVal) : List PyVal :=
  (groupReads reads k).map (fun r => r.hp)

/-- `coordinate_dict[k]`: for each read of the group, its
`reference_start` and `reference_end`, extended in read order (line 94). -/
def coordList (reads : List Read) (k : PyVal) : List Nat :=
  ((groupReads reads k).map (fun r => [r.reference_start, r.reference_end])).flatten

/-- First-occurrence deduplication, the iteration order of the keys of a
Python dict filled in read order. -/
def firstOccur : List PyVal → List PyVal
  | [] => []
  | k :: rest => k :: (firstOccur rest).filter (fun x => x ≠ k)

/-- `phase_dict.keys()`: the distinct PS values of HP-tagged reads, in
first-occurrence order (line 96). -/
def psKeys (reads : List Read) : List PyVal := firstOccur ((hpReads reads).map (fun r => r.ps))

/-- The `PhaseBlock` built for one phase-set key in `check_phase_blocks`
(lines 97-114).  The biphasic test compares the stored HP tag values
against the string literals `'1'` and `'2'`; the biphasic branch stores
the Python int literals `1` and `2` in `phase`, while the monophasic
branch stores the first observed HP tag value. -/
def blockFor (reads : List Read) (k : PyVal) : PhaseBlock :=
  if pyStr "1" ∈ phaseList reads k ∧ pyStr "2" ∈ phaseList reads k then
    { id := k
      start := pyMin (coordList reads k)
      stop := pyMax (coordList reads k)
      phase := [pyInt 1, pyInt 2]
      status := Status.biphasic }
  else
    { id := k
      start := pyMin (coordList reads k)
      stop := pyMax (coordList reads k)
      phase := [(phaseList reads k).headD (pyInt 0)]
      status := Status.monophasic }

/-- `check_phase_blocks` (lines 82-115): one block per phase-set group,
sorted by ascending start.  The `reads` argument stands for
`bam.fetch(contig=chromosome)`, the chromosome's reads in order. -/
def check_phase_blocks (reads : List Read) : List PhaseBlock :=
  sortBlocks ((psKeys reads).map (blockFor reads))

/-- `max([block.end for block in phase_blocks if block.start == start])`
(line 145). -/
def max_end_at (blocks : List PhaseBlock) (s : Nat) : Nat :=
  pyMax ((blocks.filter (fun b => b.start = s)).map (fun b => b.stop))

/-- The `zip(unphased_intervals_starts, unphased_intervals_ends)` value of
`get_unphased_blocks` (lines 139-155): the loop walks
`sorted([block.start for block in phase_blocks])` (duplicates included),
appending `max_end_at` to the starts and the walked start to the ends. -/
def unphased_pairs (blocks : List PhaseBlock) (L : Nat) : List (Nat × Nat) :=
  let start_positions := sortNat (blocks.map (fun b => b.start))
  List.zip (0 :: start_positions.map (max_end_at blocks)) (start_positions ++ [L])

/-- `get_unphased_blocks` (lines 118-165): complement the phased blocks
inside `[0, L)`, dropping pairs with equal endpoints, and return the
result sorted by start.  `L` is `chromosome_end_position`. -/
def get_unphased_blocks (blocks : List PhaseBlock) (L : Nat) : List PhaseBlock :=
  sortBlocks (((unphased_pairs blocks L).filter (fun p => p.1 ≠ p.2)).map
    (fun p => { id := pyStr "NOID", start := p.1, stop := p.2,
                phase := [pyStr "u"], status := Status.unphased }))

/-- The per-chromosome block list of `main` (lines 36-38): the phased
blocks extended with their unphased complement. -/
def pipelineBlocks (reads : List Read) (L : Nat) : List PhaseBlock :=
  check_phase_blocks reads ++ get_unphased_blocks (check_phase_blocks reads) L

/-- Whether base `p` lies in the half-open span of a block. -/
def hits (p : Nat) (b : PhaseBlock) : Bool := decide (b.start ≤ p) && decide (p < b.stop)

/-- Whether base `p` lies in a half-open coordinate pair. -/
def hitsPair (p : Nat) (pr : Nat × Nat) : Bool := decide (pr.1 ≤ p) && decide (p < pr.2)

/-- The coverage/partition invariant of the spec: every base of
`[0, L)` lies in exactly one block span, and no nonempty span leaves
`[0, L)`. -/
def isPartition (blocks : List PhaseBlock) (L : Nat) : Prop :=
  (∀ p, p < L → blocks.countP (hits p) = 1) ∧
  ∀ b ∈ blocks, b.start < b.stop → b.stop ≤ L

instance (blocks : List PhaseBlock) (L : Nat) : Decidable (isPartition blocks L) := by
  unfold isPartition; exact instDecidableAnd

/-- `bam.fetch(contig=chrom, start=start, end=stop)`: the reads whose
alignment span overlaps the half-open query region. -/
def fetch (reads : List Read) (start stop : Nat) : List Read :=
  reads.filter (fun r => decide (r.reference_start < stop) && decide (start < r.reference_end))

/-- `make_bams` (lines 168-195): for each label of `phase_block.phase`,
one read-set; all fetched reads for the unphased sentinel, otherwise the
fetched reads carrying an HP tag equal to the label. -/
def make_bams (reads : List Read) (phase_block : PhaseBlock) : List (List Read) :=
  phase_block.phase.map (fun phase =>
    if phase = pyStr "u" then fetch reads phase_block.start phase_block.stop
    else (fetch reads phase_block.start phase_block.stop).filter
      (fun r => r.hasHP && decide (r.hp = phase)))

/-- One temp path per allocation index, modelling `tempfile.mkstemp`. -/
def mkstemp_path (counter : Nat) : String := "/tmp/tmp" ++ toString counter ++ ".vcf"

/-- The default value of the `output` parameter of `concat_vcf`
(line 230).  Python evaluates a default argument once, when the `def`
statement runs at import time, so a single temp path is allocated and
shared by every call that omits `output`. -/
def concat_vcf_default_output : String := mkstemp_path 0

/-- Observable outcome of one `concat_vcf` call: the returned value
(`output` or Python `None`), whether the external `bcftools` pipeline
was invoked, and which input files were removed. -/
structure ConcatResult where
  output : Option String
  tool_invoked : Bool
  removed : List String
deriving DecidableEq, Repr

/-- `concat_vcf` (lines 230-243): on a nonempty list, run the external
concatenate+sort pipeline into `output` (defaulting to the single
import-time temp path), delete the inputs and return the output path; on
an empty list do nothing and return `None`. -/
def concat_vcf (vcfs : List String) (output : Option String) : ConcatResult :=
  let out := output.getD concat_vcf_default_output
  if vcfs ≠ [] then { output := some out, tool_invoked := true, removed := vcfs }
  else { output := none, tool_invoked := false, removed := [] }

/-- `merge_haplotypes` (lines 246-252): the body is `pass`, so the call
returns Python `None` whatever its arguments; no merged stream exists. -/
def merge_haplotypes (H1 H2 : Option String) : Option String := none

/-- Number of parameters in the `def merge_haplotypes(H1, H2)` signature
(line 246). -/
def merge_haplotypes_param_count : Nat := 2

/-- Number of positional arguments at the call site
`merge_haplotypes(h1_vcf, h2_vcf, unph_vcf)` in `main` (line 53). -/
def main_merge_call_arg_count : Nat := 3

/-- A Python call to a function with only plain positional parameters
and no defaults succeeds exactly when the argument count matches the
parameter count; otherwise it raises `TypeError`. -/
def python_call_ok (params args : Nat) : Bool := params = args

/-- Number of positional parameters of
`def sniffles(tmpdvcf, tmpbam, status)` (line 213); none has a
default. -/
def sniffles_param_count : Nat := 3

/-- Number of positional arguments at the call site
`sniffles(tmpbam, block.status)` in `main` (line 47). -/
def main_sniffles_call_arg_count : Nat := 2

/-- The `sniffles(tmpbam, block.status)` call of line 47 as a Python
call: the callee has three positional parameters and the call passes
two, so `python_call_ok` fails and the call raises `TypeError`
(`none`) instead of returning a fresh vcf path (which the `some`
branch would identify by its provenance, the (block, label) pair whose
temporary bam the call was made on). -/
def call_sniffles (b : PhaseBlock) (ph : PyVal) : Option (PhaseBlock × PyVal) :=
  if python_call_ok sniffles_param_count main_sniffles_call_arg_count then some (b, ph)
  else none

/-- Outcome of the per-block loop of `main` (lines 42-49): either the
loop completes and `variant_files` holds the listed (key, vcf)
insertions, or an uncaught `TypeError` aborts the run at line 47 while
processing the given (block, label) pair. -/
inductive LoopResult where
  | completed : List (PyVal × (PhaseBlock × PyVal)) → LoopResult
  | typeError : PhaseBlock → PyVal → LoopResult
deriving DecidableEq, Repr

/-- The inner loop over `zip(tmpbams, block.phase)` (lines 44-49): a
label whose read-set fails the gate `cov >= 10` is skipped; one that
passes reaches the line-47 call, and only when that call returns is
the (label, vcf) pair appended at line 48 — the call raises first, so
the append is never executed. -/
def phases_loop (cov : PhaseBlock → PyVal → ℚ) (b : PhaseBlock) :
    List PyVal → List (PyVal × (PhaseBlock × PyVal)) → LoopResult
  | [], acc => LoopResult.completed acc
  | ph :: rest, acc =>
    if (10 : ℚ) ≤ cov b ph then
      match call_sniffles b ph with
      | some vcf => phases_loop cov b rest (acc ++ [(ph, vcf)])
      | none => LoopResult.typeError b ph
    else phases_loop cov b rest acc

/-- The outer loop of `main` over the chromosome's blocks
(lines 42-49).  `cov` is the mean-depth oracle standing for
`get_coverage` (an external tool). -/
def blocks_loop (cov : PhaseBlock → PyVal → ℚ) :
    List PhaseBlock → List (PyVal × (PhaseBlock × PyVal)) → LoopResult
  | [], acc => LoopResult.completed acc
  | b :: rest, acc =>
    match phases_loop cov b b.phase acc with
    | LoopResult.completed acc2 => blocks_loop cov rest acc2
    | LoopResult.typeError b2 ph2 => LoopResult.typeError b2 ph2

/-- The keys `main` uses to read `variant_files` back (lines 50-52):
the string literals '1', '2' and 'u'. -/
def main_retrieval_keys : List PyVal := [pyStr "1", pyStr "2", pyStr "u"]

/-!
### Proof layer

`gapPairs` is a recursive presentation of the interval chain that
`get_unphased_blocks` zips together; the lemmas below relate it to the
source definition and count coverage.
-/

/-- The complement pairs walked left to right: from `a` to the first
block's start, then from each block's stop onward, ending at `L`. -/
def gapPairs (a L : Nat) : List PhaseBlock → List (Nat × Nat)
  | [] => [(a, L)]
  | b :: rest => (a, b.start) :: gapPairs b.stop L rest

theorem hits_iff (p : Nat) (b : PhaseBlock) : hits p b = true ↔ b.start ≤ p ∧ p < b.stop := by
  simp [hits]

theorem hitsPair_iff (p : Nat) (pr : Nat × Nat) :
    hitsPair p pr = true ↔ pr.1 ≤ p ∧ p < pr.2 := by
  simp [hitsPair]

theorem zip_stops_starts (L : Nat) (bs : List PhaseBlock) :
    ∀ a, List.zip (a :: bs.map (fun b => b.stop)) (bs.map (fun b => b.start) ++ [L]) =
      gapPairs a L bs := by
  induction bs with
  | nil => intro a; rfl
  | cons b t ih =>
    intro a
    simp only [List.map_cons, List.cons_append, List.zip_cons_cons, gapPairs, ih]

theorem gapPairs_fst_ge (L : Nat) (bs : List PhaseBlock) :
    ∀ a, (∀ b ∈ bs, a ≤ b.start) → (∀ b ∈ bs, b.start ≤ b.stop) →
      List.Pairwise (fun x y => x.stop ≤ y.start) bs →
      ∀ pr ∈ gapPairs a L bs, a ≤ pr.1 := by
  induction bs with
  | nil =>
    intro a _ _ _ pr hpr
    simp only [gapPairs, List.mem_singleton] at hpr
    subst hpr
    exact Nat.le_refl a
  | cons b t ih =>
    intro a hlo hws hpw pr hpr
    obtain ⟨hhead, htail⟩ := List.pairwise_cons.mp hpw
    simp only [gapPairs, List.mem_cons] at hpr
    rcases hpr with rfl | hpr
    · exact Nat.le_refl a
    · have h1 : a ≤ b.start := hlo b (by simp)
      have h2 : b.start ≤ b.stop := hws b (by simp)
      have h3 := ih b.stop hhead (fun r hr => hws r (List.mem_cons_of_mem b hr)) htail pr hpr
      omega

theorem gapPairs_snd_le (L : Nat) (bs : List PhaseBlock) :
    ∀ a, (∀ b ∈ bs, b.start ≤ L) → ∀ pr ∈ gapPairs a L bs, pr.2 ≤ L := by
  induction bs with
  | nil =>
    intro a _ pr hpr
    simp only [gapPairs, List.mem_singleton] at hpr
    subst hpr
    exact Nat.le_refl L
  | cons b t ih =>
    intro a hle pr hpr
    simp only [gapPairs, List.mem_cons] at hpr
    rcases hpr with rfl | hpr
    · exact hle b (by simp)
    · exact ih b.stop (fun r hr => hle r (List.mem_cons_of_mem b hr)) pr hpr

theorem count_partition_core (L p : Nat) (bs : List PhaseBlock) :
    ∀ a, List.Pairwise (fun x y => x.stop ≤ y.start) bs →
      (∀ b ∈ bs, a ≤ b.start) → (∀ b ∈ bs, b.start ≤ b.stop) → (∀ b ∈ bs, b.stop ≤ L) →
      a ≤ p → p < L →
      bs.countP (hits p) + (gapPairs a L bs).countP (hitsPair p) = 1 := by
  induction bs with
  | nil =>
    intro a _ _ _ _ hap hpL
    have : hitsPair p (a, L) = true := (hitsPair_iff p (a, L)).mpr ⟨hap, hpL⟩
    simp [gapPairs, List.countP_cons, this]
  | cons b t ih =>
    intro a hpw hlo hws hhi hap hpL
    obtain ⟨hhead, htail⟩ := List.pairwise_cons.mp hpw
    have hb_lo : a ≤ b.start := hlo b (by simp)
    have hb_ws : b.start ≤ b.stop := hws b (by simp)
    have hws_t : ∀ r ∈ t, r.start ≤ r.stop := fun r hr => hws r (List.mem_cons_of_mem b hr)
    have hhi_t : ∀ r ∈ t, r.stop ≤ L := fun r hr => hhi r (List.mem_cons_of_mem b hr)
    simp only [gapPairs, List.countP_cons]
    rcases Nat.lt_or_ge p b.stop with hpb | hpb
    · -- p lies before b.stop: the tail blocks and tail gaps contribute 0
      have ht0 : t.countP (hits p) = 0 := by
        rw [List.countP_eq_zero]
        intro r hr
        have hr1 := hhead r hr
        simp only [hits_iff]
        omega
      have hg0 : (gapPairs b.stop L t).countP (hitsPair p) = 0 := by
        rw [List.countP_eq_zero]
        intro pr hpr
        have hge := gapPairs_fst_ge L t b.stop hhead hws_t htail pr hpr
        simp only [hitsPair_iff]
        omega
      rcases Nat.lt_or_ge p b.start with hps | hps
      · have h1 : ¬ hits p b = true := by simp only [hits_iff]; omega
        have h2 : hitsPair p (a, b.start) = true := (hitsPair_iff p (a, b.start)).mpr ⟨hap, hps⟩
        simp [ht0, hg0, h1, h2]
      · have h1 : hits p b = true := (hits_iff p b).mpr ⟨hps, hpb⟩
        have h2 : ¬ hitsPair p (a, b.start) = true := by
          simp only [hitsPair_iff]
          simp only [not_and]
          intro _
          omega
        simp [ht0, hg0, h1, h2]
    · -- b is entirely to the left of p: recurse with the new left edge b.stop
      have h1 : ¬ hits p b = true := by simp only [hits_iff]; omega
      have h2 : ¬ hitsPair p (a, b.start) = true := by
        simp only [hitsPair_iff]
        simp only [not_and]
        intro _
        omega
      have hIH := ih b.stop htail hhead hws_t hhi_t hpb hpL
      simp only [h1, h2, if_false, if_neg, Nat.add_zero]
      simpa using hIH

theorem sortNat_map_start (bs : List PhaseBlock) :
    sortNat (bs.map (fun b => b.start)) = (sortBlocks bs).map (fun b => b.start) := by
  apply List.eq_of_perm_of_sorted (r := (· ≤ · : Nat → Nat → Prop))
  · exact (List.perm_insertionSort _ _).trans
      (((List.perm_insertionSort startLE bs).map (fun b => b.start)).symm)
  · exact List.sorted_insertionSort _ _
  · exact List.Pairwise.map (R := startLE) (S := (· ≤ ·)) (fun b => b.start) (fun _ _ h => h)
      (List.sorted_insertionSort startLE bs)

theorem filter_start_singleton (bs : List PhaseBlock)
    (hpw : List.Pairwise (fun x y => x.start ≠ y.start) bs) :
    ∀ b ∈ bs, bs.filter (fun x => x.start = b.start) = [b] := by
  induction bs with
  | nil => intro b hb; cases hb
  | cons c t ih =>
    intro b hb
    obtain ⟨hhead, htail⟩ := List.pairwise_cons.mp hpw
    rcases List.mem_cons.mp hb with rfl | hb
    · rw [List.filter_cons_of_pos (by simp)]
      have hnil : t.filter (fun x => x.start = b.start) = [] := by
        rw [List.filter_eq_nil_iff]
        intro r hr
        simp only [decide_eq_true_eq]
        exact fun h => hhead r hr h.symm
      rw [hnil]
    · have hcb : c.start ≠ b.start := hhead b hb
      rw [List.filter_cons_of_neg (by simp [hcb])]
      exact ih htail b hb

theorem max_end_at_eq (bs : List PhaseBlock)
    (hpw : List.Pairwise (fun x y => x.start ≠ y.start) bs) :
    ∀ b ∈ bs, max_end_at bs b.start = b.stop := by
  intro b hb
  unfold max_end_at
  rw [filter_start_singleton bs hpw b hb]
  rfl

theorem unphased_pairs_eq (bs : List PhaseBlock) (L : Nat)
    (hpw : List.Pairwise (fun x y => x.start ≠ y.start) bs) :
    unphased_pairs bs L = gapPairs 0 L (sortBlocks bs) := by
  show List.zip (0 :: (sortNat (bs.map (fun b => b.start))).map (max_end_at bs))
      (sortNat (bs.map (fun b => b.start)) ++ [L]) = gapPairs 0 L (sortBlocks bs)
  rw [sortNat_map_start, List.map_map]
  have hmap : (sortBlocks bs).map (max_end_at bs ∘ fun b => b.start) =
      (sortBlocks bs).map (fun b => b.stop) := by
    apply List.map_congr_left
    intro b hb
    have hbmem : b ∈ bs := by
      have := (List.perm_insertionSort startLE bs).mem_iff (a := b)
      exact this.mp hb
    exact max_end_at_eq bs hpw b hbmem
  rw [hmap, zip_stops_starts]

theorem hits_mk_pair (p : Nat) (pr : Nat × Nat) :
    hits p
      { id := pyStr "NOID"
        start := pr.1
        stop := pr.2
        phase := [pyStr "u"]
        status := Status.unphased } = hitsPair p pr := rfl

theorem countP_sortBlocks (f : PhaseBlock → Bool) (l : List PhaseBlock) :
    (sortBlocks l).countP f = l.countP f :=
  (List.perm_insertionSort startLE l).countP_eq f

theorem countP_get_unphased (bs : List PhaseBlock) (L p : Nat)
    (hpw : List.Pairwise (fun x y => x.start ≠ y.start) bs) :
    (get_unphased_blocks bs L).countP (hits p) =
      (gapPairs 0 L (sortBlocks bs)).countP (hitsPair p) := by
  unfold get_unphased_blocks
  rw [countP_sortBlocks, List.countP_map, List.countP_filter,
    ← unphased_pairs_eq bs L hpw]
  congr 1
  funext pr
  show (hits p
      { id := pyStr "NOID"
        start := pr.1
        stop := pr.2
        phase := [pyStr "u"]
        status := Status.unphased } && decide (pr.1 ≠ pr.2)) = hitsPair p pr
  rw [hits_mk_pair]
  by_cases hh : hitsPair p pr = true
  · have h12 := (hitsPair_iff p pr).mp hh
    have : decide (pr.1 ≠ pr.2) = true := by
      simp only [decide_eq_true_eq]
      omega
    rw [hh, this]
    rfl
  · have : hitsPair p pr = false := by
      cases h : hitsPair p pr
      · rfl
      · exact absurd h hh
    rw [this, Bool.false_and]

theorem member_of_sortBlocks {b : PhaseBlock} {bs : List PhaseBlock}
    (h : b ∈ sortBlocks bs) : b ∈ bs :=
  ((List.perm_insertionSort startLE bs).mem_iff (a := b)).mp h

theorem partition_of_disjoint (bs : List PhaseBlock) (L : Nat)
    (hdisj : List.Pairwise (fun x y => x.stop ≤ y.start ∨ y.stop ≤ x.start) bs)
    (hne : ∀ b ∈ bs, b.start < b.stop)
    (hhi : ∀ b ∈ bs, b.stop ≤ L) :
    isPartition (bs ++ get_unphased_blocks bs L) L := by
  have hstartne : List.Pairwise (fun x y => x.start ≠ y.start) bs := by
    rw [List.pairwise_iff_forall_sublist] at hdisj ⊢
    intro a b hsub
    have ha : a ∈ bs := hsub.subset (by simp)
    have hb : b ∈ bs := hsub.subset (by simp)
    have h1 := hne a ha
    have h2 := hne b hb
    have h3 := hdisj hsub
    omega
  have hsbperm : List.Perm (sortBlocks bs) bs := List.perm_insertionSort startLE bs
  have hchain : List.Pairwise (fun x y => x.stop ≤ y.start) (sortBlocks bs) := by
    have hdisj' : List.Pairwise (fun x y => x.stop ≤ y.start ∨ y.stop ≤ x.start)
        (sortBlocks bs) :=
      ((hsbperm.pairwise_iff (fun h => h.symm)).mpr hdisj)
    have hsorted : List.Pairwise startLE (sortBlocks bs) :=
      List.sorted_insertionSort startLE bs
    rw [List.pairwise_iff_forall_sublist] at hdisj' hsorted ⊢
    intro a b hsub
    have ha : a ∈ bs := member_of_sortBlocks (hsub.subset (by simp))
    have hb : b ∈ bs := member_of_sortBlocks (hsub.subset (by simp))
    have h1 := hne a ha
    have h2 := hne b hb
    have h3 := hdisj' hsub
    have h4 : a.start ≤ b.start := hsorted hsub
    unfold startLE at h4
    omega
  have hws_sb : ∀ b ∈ sortBlocks bs, b.start ≤ b.stop :=
    fun b hb => Nat.le_of_lt (hne b (member_of_sortBlocks hb))
  have hhi_sb : ∀ b ∈ sortBlocks bs, b.stop ≤ L :=
    fun b hb => hhi b (member_of_sortBlocks hb)
  constructor
  · intro p hp
    rw [List.countP_append, (hsbperm.countP_eq (hits p)).symm,
      countP_get_unphased bs L p hstartne]
    exact count_partition_core L p (sortBlocks bs) 0 hchain
      (fun b _ => Nat.zero_le b.start) hws_sb hhi_sb (Nat.zero_le p) hp
  · intro b hb hbne
    rcases List.mem_append.mp hb with hb | hb
    · exact hhi b hb
    · unfold get_unphased_blocks at hb
      have hb' := member_of_sortBlocks hb
      obtain ⟨pr, hpr, rfl⟩ := List.mem_map.mp hb'
      have hpr' : pr ∈ unphased_pairs bs L := (List.mem_filter.mp hpr).1
      rw [unphased_pairs_eq bs L hstartne] at hpr'
      have : pr.2 ≤ L := by
        apply gapPairs_snd_le L (sortBlocks bs) 0 _ pr hpr'
        intro r hr
        exact Nat.le_trans (Nat.le_of_lt (hne r (member_of_sortBlocks hr)))
          (hhi r (member_of_sortBlocks hr))
      exact this

/-!
### Claim theorems
-/

/-- Two HP-tagged reads in distinct phase-set groups whose coordinate
ranges overlap: group 7 spans `[0,100)` and group 8 spans `[50,150)`. -/
def overlapReads : List Read :=
  [⟨true, pyStr "1", pyInt 7, 0, 100⟩, ⟨true, pyStr "1", pyInt 8, 50, 150⟩]

set_option maxRecDepth 4000 in
/-- C1 counterexample: for the chromosome of `overlapReads` (length 200)
the phased blocks produced by `check_phase_blocks` overlap on `[50,100)`,
so the union of phased and unphased spans is not a partition of
`[0,200)`: base 60 is covered twice. -/
theorem C1_counterexample : ¬ isPartition (pipelineBlocks overlapReads 200) 200 := by decide

/-- C1 (amended): when the phased blocks emitted by the Phase-Block
Detector are pairwise disjoint, nonempty and contained in
`[0, chromosome_length)`, the union of the phased blocks and the
unphased blocks emitted by `get_unphased_blocks` covers every base of
`[0, chromosome_length)` exactly once and no nonempty span leaves it. -/
theorem C1_partition_of_disjoint_blocks (reads : List Read) (L : Nat)
    (hdisj : List.Pairwise (fun x y => x.stop ≤ y.start ∨ y.stop ≤ x.start)
      (check_phase_blocks reads))
    (hne : ∀ b ∈ check_phase_blocks reads, b.start < b.stop)
    (hhi : ∀ b ∈ check_phase_blocks reads, b.stop ≤ L) :
    isPartition (pipelineBlocks reads L) L :=
  partition_of_disjoint (check_phase_blocks reads) L hdisj hne hhi

/-- A chromosome with a single phase-set group spanning `[10,20)`. -/
def singleGroupReads : List Read := [⟨true, pyStr "1", pyInt 7, 10, 20⟩]

set_option maxRecDepth 4000 in
/-- Witness for the amended C1 at a concrete disjoint input. -/
theorem C1_partition_witness : isPartition (pipelineBlocks singleGroupReads 30) 30 :=
  C1_partition_of_disjoint_blocks singleGroupReads 30 (by decide) (by decide) (by decide)

/-- A phased block as fed to the Interval Complementer in examples. -/
def phasedPB (s e : Nat) : PhaseBlock := ⟨pyInt 0, s, e, [pyStr "1"], Status.monophasic⟩

set_option maxRecDepth 4000 in
/-- C2 counterexample: two phased intervals sharing start 5 with ends 10
and 12, chromosome length 20.  The complementer emits the inverted
interval `(12,5)`, so not every emitted unphased interval has
start < end. -/
theorem C2_counterexample :
    ¬ ∀ b ∈ get_unphased_blocks [phasedPB 5 10, phasedPB 5 12] 20, b.start < b.stop := by
  decide

/-- An unphased block as emitted by `get_unphased_blocks`. -/
def unphasedPB (s e : Nat) : PhaseBlock := ⟨pyStr "NOID", s, e, [pyStr "u"], Status.unphased⟩

/-- C2 (amended): `get_unphased_blocks` walks the sorted start
coordinates with multiplicity, not deduplicated.  For two phased
intervals sharing start `s` with ends `e₁ ≤ e₂` (`s < e₁`), the maximum
end `e₂` anchors the gap following the shared start (the pair
`(e₂, L)` when `e₂ ≠ L`), but the duplicate occurrence of `s` also
emits a spurious inverted interval from `e₂` back to `s`, whose start
exceeds its end. -/
theorem C2_shared_start_behaviour (s e₁ e₂ L : Nat) (h1 : s < e₁) (h2 : e₁ ≤ e₂) :
    (unphasedPB e₂ s ∈ get_unphased_blocks [phasedPB s e₁, phasedPB s e₂] L ∧ s < e₂) ∧
    (e₂ ≠ L → unphasedPB e₂ L ∈ get_unphased_blocks [phasedPB s e₁, phasedPB s e₂] L) := by
  have hse : s < e₂ := Nat.lt_of_lt_of_le h1 h2
  have hsort : sortNat [s, s] = [s, s] := by
    unfold sortNat
    simp [List.insertionSort, List.orderedInsert]
  have hfil : List.filter (fun b => b.start = s) [phasedPB s e₁, phasedPB s e₂] =
      [phasedPB s e₁, phasedPB s e₂] := by
    simp [phasedPB]
  have hme : max_end_at [phasedPB s e₁, phasedPB s e₂] s = e₂ := by
    unfold max_end_at
    rw [hfil]
    show pyMax [e₁, e₂] = e₂
    unfold pyMax
    simp [Nat.max_eq_right h2]
  have hpairs : unphased_pairs [phasedPB s e₁, phasedPB s e₂] L = [(0, s), (e₂, s), (e₂, L)] := by
    show List.zip (0 :: (sortNat [s, s]).map (max_end_at [phasedPB s e₁, phasedPB s e₂]))
        (sortNat [s, s] ++ [L]) = [(0, s), (e₂, s), (e₂, L)]
    rw [hsort]
    simp [hme]
  constructor
  · refine ⟨?_, hse⟩
    unfold get_unphased_blocks
    rw [hpairs]
    apply ((List.perm_insertionSort startLE _).mem_iff).mpr
    apply List.mem_map.mpr
    refine ⟨(e₂, s), List.mem_filter.mpr ⟨by simp, ?_⟩, rfl⟩
    simp only [decide_eq_true_eq]
    omega
  · intro hL
    unfold get_unphased_blocks
    rw [hpairs]
    apply ((List.perm_insertionSort startLE _).mem_iff).mpr
    apply List.mem_map.mpr
    refine ⟨(e₂, L), List.mem_filter.mpr ⟨by simp, ?_⟩, rfl⟩
    simp only [decide_eq_true_eq]
    exact hL

/-- Witness for the amended C2 at the concrete shared-start input. -/
theorem C2_shared_start_witness :
    (unphasedPB 12 5 ∈ get_unphased_blocks [phasedPB 5 10, phasedPB 5 12] 20 ∧ 5 < 12) ∧
    ((12 : Nat) ≠ 20 →
      unphasedPB 12 20 ∈ get_unphased_blocks [phasedPB 5 10, phasedPB 5 12] 20) :=
  C2_shared_start_behaviour 5 10 12 20 (by decide) (by decide)

/-- C7: for two touching phased intervals `[a,b)` and `[b,c)` inside a
chromosome of length `L`, the degenerate pair `(b,b)` between them is
dropped, every emitted unphased interval has start < end, and every
emitted unphased interval lies entirely outside `[a,c)` (so nothing at
all is emitted between the two touching intervals). -/
theorem C7_touching_intervals (a b c L : Nat) (hab : a < b) (hbc : b < c) (hcL : c ≤ L) :
    ∀ blk ∈ get_unphased_blocks [phasedPB a b, phasedPB b c] L,
      blk.start < blk.stop ∧ (blk.stop ≤ a ∨ c ≤ blk.start) := by
  have hba : b ≠ a := Nat.ne_of_gt hab
  have hsort : sortNat [a, b] = [a, b] := by
    unfold sortNat
    simp [List.insertionSort, List.orderedInsert, Nat.le_of_lt hab]
  have hfa : List.filter (fun blk => blk.start = a) [phasedPB a b, phasedPB b c] =
      [phasedPB a b] := by
    simp [phasedPB, hba]
  have hfb : List.filter (fun blk => blk.start = b) [phasedPB a b, phasedPB b c] =
      [phasedPB b c] := by
    simp [phasedPB, Ne.symm hba]
  have hma : max_end_at [phasedPB a b, phasedPB b c] a = b := by
    unfold max_end_at
    rw [hfa]
    rfl
  have hmb : max_end_at [phasedPB a b, phasedPB b c] b = c := by
    unfold max_end_at
    rw [hfb]
    rfl
  have hpairs : unphased_pairs [phasedPB a b, phasedPB b c] L = [(0, a), (b, b), (c, L)] := by
    show List.zip (0 :: (sortNat [a, b]).map (max_end_at [phasedPB a b, phasedPB b c]))
        (sortNat [a, b] ++ [L]) = [(0, a), (b, b), (c, L)]
    rw [hsort]
    simp [hma, hmb]
  intro blk hblk
  unfold get_unphased_blocks at hblk
  rw [hpairs] at hblk
  have hblk' := ((List.perm_insertionSort startLE _).mem_iff).mp hblk
  obtain ⟨pr, hpr, rfl⟩ := List.mem_map.mp hblk'
  obtain ⟨hprmem, hprne⟩ := List.mem_filter.mp hpr
  simp only [decide_eq_true_eq] at hprne
  simp only [List.mem_cons, List.not_mem_nil, or_false] at hprmem
  rcases hprmem with rfl | rfl | rfl
  · exact ⟨by simpa using Nat.pos_of_ne_zero (fun h => hprne h.symm), Or.inl (Nat.le_refl a)⟩
  · exact absurd rfl hprne
  · exact ⟨Nat.lt_of_le_of_ne hcL hprne, Or.inr (Nat.le_refl c)⟩

/-- Witness for C7 at the spec's concrete touching input `[100,200)`,
`[200,300)`, chromosome length 500. -/
theorem C7_touching_witness :
    unphasedPB 0 100 ∈ get_unphased_blocks [phasedPB 100 200, phasedPB 200 300] 500 ∧
    ((unphasedPB 0 100).start < (unphasedPB 0 100).stop ∧
      ((unphasedPB 0 100).stop ≤ 100 ∨ 300 ≤ (unphasedPB 0 100).start)) :=
  ⟨by decide,
    C7_touching_intervals 100 200 300 500 (by decide) (by decide) (by decide)
      (unphasedPB 0 100) (by decide)⟩

theorem firstOccur_subset {k : PyVal} : ∀ {l : List PyVal}, k ∈ firstOccur l → k ∈ l := by
  intro l
  induction l with
  | nil => intro h; cases h
  | cons x t ih =>
    intro h
    simp only [firstOccur, List.mem_cons] at h
    rcases h with rfl | h
    · exact List.mem_cons_self k t
    · exact List.mem_cons_of_mem x (ih (List.mem_filter.mp h).1)

theorem phaseList_ne_nil {reads : List Read} {k : PyVal} (hk : k ∈ psKeys reads) :
    phaseList reads k ≠ [] := by
  have hk' : k ∈ (hpReads reads).map (fun r => r.ps) := firstOccur_subset hk
  obtain ⟨r, hr, hps⟩ := List.mem_map.mp hk'
  have hrg : r ∈ groupReads reads k := by
    unfold groupReads
    exact List.mem_filter.mpr ⟨hr, by simp [hps]⟩
  have : r.hp ∈ phaseList reads k := List.mem_map_of_mem (fun r => r.hp) hrg
  exact List.ne_nil_of_mem this

theorem phaseList_labels {reads : List Read} {k : PyVal}
    (hlab : ∀ r ∈ reads, r.hasHP = true → r.hp = pyStr "1" ∨ r.hp = pyStr "2") :
    ∀ l ∈ phaseList reads k, l = pyStr "1" ∨ l = pyStr "2" := by
  intro l hl
  obtain ⟨r, hr, rfl⟩ := List.mem_map.mp hl
  have hr' : r ∈ hpReads reads := (List.mem_filter.mp hr).1
  obtain ⟨hrm, hrt⟩ := List.mem_filter.mp hr'
  exact hlab r hrm (by simpa using hrt)

theorem headD_eq_of_all {l : List PyVal} {v d : PyVal} (hne : l ≠ [])
    (hall : ∀ x ∈ l, x = v) : l.headD d = v := by
  cases l with
  | nil => exact absurd rfl hne
  | cons x t => exact hall x (List.mem_cons_self x t)

/-- C3: assuming every HP-tagged read carries label 1 or 2 (the code's
comparison values), each emitted block is biphasic exactly when both
labels occur in its phase-set group, monophasic exactly when one of the
two occurs (its `phase` list then holds that single label), and no
block carries an empty `phase` list. -/
theorem C3_status_iff_labels (reads : List Read)
    (hlab : ∀ r ∈ reads, r.hasHP = true → r.hp = pyStr "1" ∨ r.hp = pyStr "2") :
    ∀ b ∈ check_phase_blocks reads,
      b.phase ≠ [] ∧
      (b.status = Status.biphasic ↔
        pyStr "1" ∈ phaseList reads b.id ∧ pyStr "2" ∈ phaseList reads b.id) ∧
      (b.status = Status.monophasic ↔
        ((pyStr "1" ∈ phaseList reads b.id ∧ pyStr "2" ∉ phaseList reads b.id) ∨
         (pyStr "2" ∈ phaseList reads b.id ∧ pyStr "1" ∉ phaseList reads b.id))) ∧
      (b.status = Status.monophasic →
        ((pyStr "1" ∈ phaseList reads b.id → b.phase = [pyStr "1"]) ∧
         (pyStr "2" ∈ phaseList reads b.id → b.phase = [pyStr "2"]))) := by
  intro b hb
  unfold check_phase_blocks at hb
  obtain ⟨k, hk, rfl⟩ := List.mem_map.mp (member_of_sortBlocks hb)
  have hne := phaseList_ne_nil hk
  have hsub := phaseList_labels (k := k) hlab
  by_cases h : pyStr "1" ∈ phaseList reads k ∧ pyStr "2" ∈ phaseList reads k
  · have hbf : blockFor reads k =
        { id := k
          start := pyMin (coordList reads k)
          stop := pyMax (coordList reads k)
          phase := [pyInt 1, pyInt 2]
          status := Status.biphasic } := by
      unfold blockFor
      rw [if_pos h]
    rw [hbf]
    refine ⟨by simp, ?_, ?_, ?_⟩
    · simpa using h
    · simp only [show (Status.biphasic = Status.monophasic) = False from
        eq_false (by intro hcon; cases hcon), false_iff]
      intro hc
      rcases hc with ⟨_, h2⟩ | ⟨_, h1⟩
      · exact h2 h.2
      · exact h1 h.1
    · intro hcon
      cases hcon
  · have hbf : blockFor reads k =
        { id := k
          start := pyMin (coordList reads k)
          stop := pyMax (coordList reads k)
          phase := [(phaseList reads k).headD (pyInt 0)]
          status := Status.monophasic } := by
      unfold blockFor
      rw [if_neg h]
    rw [hbf]
    have hone : (pyStr "1" ∈ phaseList reads k ∧ pyStr "2" ∉ phaseList reads k) ∨
        (pyStr "2" ∈ phaseList reads k ∧ pyStr "1" ∉ phaseList reads k) := by
      obtain ⟨l0, hl0⟩ := List.exists_mem_of_ne_nil _ hne
      rcases hsub l0 hl0 with rfl | rfl
      · exact Or.inl ⟨hl0, fun h2 => h ⟨hl0, h2⟩⟩
      · exact Or.inr ⟨hl0, fun h1 => h ⟨h1, hl0⟩⟩
    refine ⟨by simp, ?_, ?_, ?_⟩
    · simp only [show (Status.monophasic = Status.biphasic) = False from
        eq_false (by intro hcon; cases hcon), false_iff]
      exact h
    · simpa using hone
    · intro _
      constructor
      · intro h1
        have h2 : pyStr "2" ∉ phaseList reads k := fun h2 => h ⟨h1, h2⟩
        have : (phaseList reads k).headD (pyInt 0) = pyStr "1" := by
          apply headD_eq_of_all hne
          intro x hx
          rcases hsub x hx with rfl | rfl
          · rfl
          · exact absurd hx h2
        show [(phaseList reads k).headD (pyInt 0)] = [pyStr "1"]
        rw [this]
      · intro h2
        have h1 : pyStr "1" ∉ phaseList reads k := fun h1 => h ⟨h1, h2⟩
        have : (phaseList reads k).headD (pyInt 0) = pyStr "2" := by
          apply headD_eq_of_all hne
          intro x hx
          rcases hsub x hx with rfl | rfl
          · exact absurd hx h1
          · rfl
        show [(phaseList reads k).headD (pyInt 0)] = [pyStr "2"]
        rw [this]

/-- Reads of one biphasic phase-set group. -/
def biphasicReads : List Read :=
  [⟨true, pyStr "1", pyInt 7, 0, 10⟩, ⟨true, pyStr "2", pyInt 7, 5, 20⟩]

/-- Witness for C3 at a concrete biphasic group. -/
theorem C3_status_witness :
    (blockFor biphasicReads (pyInt 7)).status = Status.biphasic ∧
    (blockFor biphasicReads (pyInt 7)).phase ≠ [] := by
  have h := C3_status_iff_labels biphasicReads (by decide) (blockFor biphasicReads (pyInt 7))
    (by decide)
  exact ⟨h.2.1.mpr (by decide), h.1⟩

theorem zip_map_snd {α β : Type} (l : List α) (f : α → β) :
    ∀ pr ∈ l.zip (l.map f), pr.2 = f pr.1 := by
  induction l with
  | nil => intro pr hpr; cases hpr
  | cons x t ih =>
    intro pr hpr
    simp only [List.map_cons, List.zip_cons_cons, List.mem_cons] at hpr
    rcases hpr with rfl | hpr
    · rfl
    · exact ih pr hpr

/-- C5: in `make_bams`, the read-set paired with a phased label contains
exactly the reads overlapping the block span that carry an HP tag equal
to that label, and the read-set paired with the unphased sentinel
contains exactly all reads overlapping the span. -/
theorem C5_read_set_exact (reads : List Read) (phase_block : PhaseBlock) :
    ∀ pr ∈ phase_block.phase.zip (make_bams reads phase_block), ∀ r : Read,
      (pr.1 ≠ pyStr "u" →
        (r ∈ pr.2 ↔ r ∈ reads ∧ r.reference_start < phase_block.stop ∧
          phase_block.start < r.reference_end ∧ r.hasHP = true ∧ r.hp = pr.1)) ∧
      (pr.1 = pyStr "u" →
        (r ∈ pr.2 ↔ r ∈ reads ∧ r.reference_start < phase_block.stop ∧
          phase_block.start < r.reference_end)) := by
  intro pr hpr r
  have h2 := zip_map_snd phase_block.phase _ pr hpr
  constructor
  · intro hne
    rw [h2, if_neg hne]
    simp only [List.mem_filter, fetch, Bool.and_eq_true, decide_eq_true_eq]
    tauto
  · intro he
    rw [h2, if_pos he]
    simp only [List.mem_filter, fetch, Bool.and_eq_true, decide_eq_true_eq]

/-- Two reads overlapping `[100,200)`, one per haplotype. -/
def readA : Read := ⟨true, pyStr "1", pyInt 9, 50, 150⟩

/-- The haplotype-2 read of the C5 example. -/
def readB : Read := ⟨true, pyStr "2", pyInt 9, 50, 150⟩

/-- A monophasic block over `[100,200)` materialised for label 1. -/
def blockH1 : PhaseBlock := ⟨pyInt 9, 100, 200, [pyStr "1"], Status.monophasic⟩

/-- The read-set `make_bams` materialises for `(blockH1, label 1)`. -/
def readSetH1 : List Read := (make_bams [readA, readB] blockH1).headD []

/-- Witness for C5: the haplotype-2 read is excluded from the
haplotype-1 read-set even though its span overlaps the block, and the
haplotype-1 read is retained. -/
theorem C5_read_set_witness : readB ∉ readSetH1 ∧ readA ∈ readSetH1 := by
  constructor
  · intro hmem
    have h := (C5_read_set_exact [readA, readB] blockH1 (pyStr "1", readSetH1)
      (by decide) readB).1 (by decide)
    exact absurd (h.mp hmem).2.2.2.2 (by decide)
  · have h := (C5_read_set_exact [readA, readB] blockH1 (pyStr "1", readSetH1)
      (by decide) readA).1 (by decide)
    exact h.mpr (by decide)

/-- An unphased block over `[0,50)` used in the coverage-gate example. -/
def gateBlock : PhaseBlock := ⟨pyStr "NOID", 0, 50, [pyStr "u"], Status.unphased⟩

/-- Coverage oracle reporting mean depth 9.99 everywhere. -/
def covLow : PhaseBlock → PyVal → ℚ := fun _ _ => mkRat 999 100

/-- Coverage oracle reporting mean depth exactly 10 everywhere. -/
def covTen : PhaseBlock → PyVal → ℚ := fun _ _ => 10

/-- C6: at mean depth 9.99 the gate of line 46 skips the read-set and
the per-block loop completes with zero call-result records, exactly as
the claim says; at mean depth exactly 10.0 the read-set is admitted,
but the admission executes the line-47 call
`sniffles(tmpbam, block.status)` — two arguments for the
three-parameter `sniffles` of line 213 — so the run aborts with an
uncaught `TypeError` on that (block, label) pair and no call-result
record is produced on the admitted path either. -/
theorem C6_gate_admission_crashes :
    blocks_loop covLow [gateBlock] [] = LoopResult.completed [] ∧
    blocks_loop covTen [gateBlock] [] = LoopResult.typeError gateBlock (pyStr "u") := by
  constructor
  · decide
  · decide

/-- C8: called on an empty list, `concat_vcf` takes the falsy branch of
`if vcfs:` — the external concatenate+sort tool is not invoked, nothing
is removed, and Python `None` is returned. -/
theorem C8_empty_input_noop (output : Option String) :
    concat_vcf [] output = { output := none, tool_invoked := false, removed := [] } := rfl

/-- C9: the keys under which `main` would store a phased interval's
call-result files are the elements of `block.phase` — for a biphasic
block the Python int literals 1 and 2 written at line 103 — and none
of them equals any of the string keys '1', '2', 'u' that lines 50-52
read back: int 1 and str '1' are distinct Python values, refuting the
claimed key equality.  Moreover, at this very input (single biphasic
block, mean depth 20 everywhere) the run never reaches a store at all:
the first admitted read-set aborts the loop at line 47 with an uncaught
`TypeError`, as the last conjunct computes. -/
theorem C9_key_type_mismatch :
    (blockFor biphasicReads (pyInt 7)).status = Status.biphasic ∧
    (blockFor biphasicReads (pyInt 7)).phase = [pyInt 1, pyInt 2] ∧
    (blockFor biphasicReads (pyInt 7)).phase.filter
      (fun ph => ph ∈ main_retrieval_keys) = [] ∧
    blocks_loop (fun _ _ => (20 : ℚ)) (pipelineBlocks biphasicReads 20) [] =
      LoopResult.typeError (blockFor biphasicReads (pyInt 7)) (pyInt 1) := by
  refine ⟨rfl, rfl, rfl, ?_⟩
  decide

/-- C10: every two calls of `concat_vcf` that omit `output` write to and
return the same single path, the one temp file allocated when the `def`
statement was evaluated — Python evaluates default arguments once at
function definition, not per call. -/
theorem C10_single_default_path (v₁ v₂ : List String) (h₁ : v₁ ≠ []) (h₂ : v₂ ≠ []) :
    (concat_vcf v₁ none).output = some concat_vcf_default_output ∧
    (concat_vcf v₂ none).output = some concat_vcf_default_output ∧
    (concat_vcf v₁ none).output = (concat_vcf v₂ none).output := by
  unfold concat_vcf
  rw [if_pos h₁, if_pos h₂]
  exact ⟨rfl, rfl, rfl⟩

/-- Witness for C10 at two concrete nonempty invocations. -/
theorem C10_single_default_witness :
    (concat_vcf ["a.vcf"] none).output = some concat_vcf_default_output ∧
    (concat_vcf ["b.vcf"] none).output = some concat_vcf_default_output ∧
    (concat_vcf ["a.vcf"] none).output = (concat_vcf ["b.vcf"] none).output :=
  C10_single_default_path ["a.vcf"] ["b.vcf"] (by decide) (by decide)

/-- C4: the cross-haplotype merge is an unfinished stub.  Its definition
takes two parameters while `main` passes three (a `TypeError` by
Python's calling convention), and even called correctly its body is
`pass`, returning `None` — no merged chromosome-level stream exists. -/
theorem C4_merge_is_stub :
    python_call_ok merge_haplotypes_param_count main_merge_call_arg_count = false ∧
    merge_haplotypes (some "h1.vcf") (some "h2.vcf") = none :=
  ⟨rfl, rfl⟩

/-- Witness for C8 at a concrete omitted-output call. -/
theorem C8_empty_input_witness :
    concat_vcf [] (some "out.vcf") = { output := none, tool_invoked := false, removed := [] } :=
  C8_empty_input_noop (some "out.vcf")
